import Mathlib

/-!
Verification of the `TetMesh` tetrahedral-mesh class (src/lapy/TetMesh.py)
against its natural-language specification.

The class is embedded shallowly:
vertex coordinates become rationals (the idealization of the float
arithmetic, exact where the code compares signs), the vertex array `v`
is a `List Vec3`, the tetra array `t` a `List Tet4`, and the cached
sparse adjacency matrix `adj_sym` is represented by the tetra list it
was built from (field `adjsrc`), its entries being recovered by the
pure function `adjEntry`.  Fallible operations (`__init__`,
`rm_free_vertices_`) return `Except String`, mirroring the `ValueError`
and `IndexError` exceptions the cupy code can raise.
-/

namespace LapyTet

/-- A 3D coordinate triple, modelling one row of `self.v`. -/
abbrev Vec3 : Type := ℚ × ℚ × ℚ

/-- A tetrahedron: four vertex indices, modelling one row of `self.t`. -/
abbrev Tet4 : Type := ℕ × ℕ × ℕ × ℕ

/-- A triangle: three vertex indices, modelling one row of a face array. -/
abbrev Tri3 : Type := ℕ × ℕ × ℕ

/-- Componentwise difference of coordinate triples (`v1 - v0` in the code). -/
def vsub (a b : Vec3) : Vec3 :=
  (a.1 - b.1, a.2.1 - b.2.1, a.2.2 - b.2.2)

/-- Cross product of coordinate triples (`cupy.cross`). -/
def cross (a b : Vec3) : Vec3 :=
  (a.2.1 * b.2.2 - a.2.2 * b.2.1,
   a.2.2 * b.1 - a.1 * b.2.2,
   a.1 * b.2.1 - a.2.1 * b.1)

/-- Dot product of coordinate triples (`cupy.sum(e3 * cr, axis=1)`). -/
def dot (a b : Vec3) : ℚ :=
  a.1 * b.1 + a.2.1 * b.2.1 + a.2.2 * b.2.2

/-- Row lookup `self.v[i, :]`.  In-range accesses (the only ones the valid
meshes perform) are ordinary list indexing. -/
def vget (v : List Vec3) (i : ℕ) : Vec3 :=
  v.getD i (0, 0, 0)

/-- Signed volume of one tetra, exactly as `is_oriented` / `orient_` compute
it: `e0 = v1 - v0`, `e2 = v2 - v0`, `e3 = v3 - v0`,
`vol = e3 . cross e0 e2` (six times the true volume). -/
def signedVol (v : List Vec3) (tet : Tet4) : ℚ :=
  let p0 := vget v tet.1
  let p1 := vget v tet.2.1
  let p2 := vget v tet.2.2.1
  let p3 := vget v tet.2.2.2
  dot (vsub p3 p0) (cross (vsub p1 p0) (vsub p2 p0))

/-- Largest of the four indices of a tetra. -/
def tetMaxOf (tet : Tet4) : ℕ :=
  max (max tet.1 tet.2.1) (max tet.2.2.1 tet.2.2.2)

/-- `cupy.max(self.t)`: largest vertex index appearing in the tetra array
(0 for the empty array, on which the cupy reduction instead raises; the
callers treat the empty case separately). -/
def tetMaxVal (t : List Tet4) : ℕ :=
  t.foldl (fun acc tet => max acc (tetMaxOf tet)) 0

/-- The mesh state: vertex array, tetra array, and the tetra array from
which the cached `adj_sym` was last built (`adjEntry adjsrc` recovers the
matrix entries).  `adjsrc` can go stale when `t` is replaced without
reconstruction. -/
structure TetMesh where
  v : List Vec3
  t : List Tet4
  adjsrc : List Tet4
deriving DecidableEq, Repr

instance {e a : Type} [DecidableEq e] [DecidableEq a] :
    DecidableEq (Except e a) := fun x y =>
  match x, y with
  | .error p, .error q => decidable_of_iff (p = q) (by simp)
  | .error _, .ok _ => isFalse (fun h => by cases h)
  | .ok _, .error _ => isFalse (fun h => by cases h)
  | .ok p, .ok q => decidable_of_iff (p = q) (by simp)

/-- The 12 directed index pairs one tetra contributes to the COO arrays
`(i, j)` of `construct_adj_sym`: each of the 6 undirected edges in both
directions, in the column order of the code. -/
def tetPairs (tet : Tet4) : List (ℕ × ℕ) :=
  let a := tet.1
  let b := tet.2.1
  let c := tet.2.2.1
  let d := tet.2.2.2
  [(a, b), (b, a), (b, c), (c, b), (c, a), (a, c),
   (a, d), (b, d), (c, d), (d, a), (d, b), (d, c)]

/-- Entry `(u, w)` of the sparse matrix built by `construct_adj_sym`:
all tetras emit their 12 directed pairs with weight one and the csc
constructor sums duplicate coordinates, so the entry is the number of
emitted pairs equal to `(u, w)`. -/
def adjEntry (ts : List Tet4) (u w : ℕ) : ℕ :=
  (ts.flatMap tetPairs).count (u, w)

/-- `TetMesh.__init__`: store `v` and `t`, compute
`vnum = max(self.v.shape)` (the larger of the row count and the column
count 3), raise `ValueError` when `cupy.max(self.t) >= vnum`, raise the
cupy zero-size reduction error when `t` is empty, and otherwise cache the
adjacency built from `t`. -/
def initTetMesh (v : List Vec3) (t : List Tet4) : Except String TetMesh :=
  match t with
  | [] => .error "zero-size array to reduction operation maximum"
  | _ :: _ =>
    if tetMaxVal t ≥ max v.length 3 then
      .error "Max index exceeds number of vertices"
    else
      .ok ⟨v, t, t⟩

/-- The flattened tetra array `self.t.reshape(-1)`. -/
def tflatten (t : List Tet4) : List ℕ :=
  t.flatMap (fun q => [q.1, q.2.1, q.2.2.1, q.2.2.2])

/-- `len(cupy.unique(self.t.reshape(-1)))`: the number of distinct vertex
indices referenced by the tetra array. -/
def numDistinct (t : List Tet4) : ℕ :=
  (tflatten t).dedup.length

/-- `has_free_vertices`: compares `vnum = max(self.v.shape)` with the
number of distinct referenced indices. -/
def hasFreeVertices (m : TetMesh) : Bool :=
  decide (max m.v.length 3 ≠ numDistinct m.t)

/-- The four distinguishable diagnostics `is_oriented` prints. -/
inductive OrientDiag : Type
  | flipped
  | correct
  | degenerate
  | notUniform
deriving DecidableEq, Repr

/-- `is_oriented`: signed volumes of all tetras, then the branch cascade
`max(vol) < 0` / `min(vol) > 0` / `count_nonzero(vol) < len(vol)` / else.
Returns the boolean together with the diagnostic printed on that branch;
`none` models the cupy reduction error on an empty tetra array. -/
def isOriented (v : List Vec3) (t : List Tet4) : Option (Bool × OrientDiag) :=
  match t with
  | [] => none
  | tt0 :: ts =>
    let x := signedVol v tt0
    let xs := ts.map (signedVol v)
    if xs.foldl max x < 0 then some (false, .flipped)
    else if 0 < xs.foldl min x then some (true, .correct)
    else if (x :: xs).countP (fun y => decide (y ≠ 0)) < (x :: xs).length then
      some (false, .degenerate)
    else some (false, .notUniform)

/-- Swap of the second and third index of a tetra (`v1 <-> v2`), the
repair `orient_` applies to a negative-volume tetra. -/
def swap12 (tet : Tet4) : Tet4 :=
  (tet.1, tet.2.2.1, tet.2.1, tet.2.2.2)

/-- The tetra array after the in-place swap loop of `orient_`: exactly
the tetras with negative signed volume get their second and third index
swapped. -/
def orientT (v : List Vec3) (t : List Tet4) : List Tet4 :=
  t.map (fun tet => if signedVol v tet < 0 then swap12 tet else tet)

/-- `cupy.sum(negtet)`: the number of tetras with negative signed volume. -/
def negCount (v : List Vec3) (t : List Tet4) : ℕ :=
  t.countP (fun tet => decide (signedVol v tet < 0))

/-- `orient_`: when no tetra has negative volume, return 0 without any
mutation; otherwise swap the negative tetras and rebuild the mesh through
`__init__` (which re-validates and reconstructs the adjacency), returning
the flip count. -/
def orientMesh (m : TetMesh) : Except String (TetMesh × ℕ) :=
  if negCount m.v m.t = 0 then
    .ok (m, 0)
  else
    (initTetMesh m.v (orientT m.v m.t)).map (fun m2 => (m2, negCount m.v m.t))

/-- `rm_free_vertices_`: re-validate the index range (against
`vnum = max(self.v.shape)`), mark referenced vertices, return unchanged
when nothing is deleted, and otherwise compact `v`, remap `t` through the
`cumsum(vkeep) - 1` lookup and replace both — without rebuilding the
cached adjacency.  The boolean-mask error branch models the cupy
`IndexError` when the length-`vnum` mask is applied to a `v` with fewer
rows (which happens exactly when `v` has fewer than 3 rows). -/
def rmFree (m : TetMesh) : Except String (TetMesh × List ℕ × List ℕ) :=
  let tflat := tflatten m.t
  let vnum := max m.v.length 3
  match m.t with
  | [] => .error "zero-size array to reduction operation maximum"
  | _ :: _ =>
    if tetMaxVal m.t ≥ vnum then
      .error "Max index exceeds number of vertices"
    else
      let vdel := (List.range vnum).filter (fun i => !(decide (i ∈ tflat)))
      if vdel = [] then
        .ok (m, List.range vnum, [])
      else if vnum ≠ m.v.length then
        .error "boolean index did not match indexed array"
      else
        let vnew := ((List.range m.v.length).filter
          (fun i => decide (i ∈ tflat))).map (fun i => m.v.getD i (0, 0, 0))
        let tl := fun i =>
          ((List.range (i + 1)).countP (fun j => decide (j ∈ tflat))) - 1
        let tnew := m.t.map (fun q => (tl q.1, tl q.2.1, tl q.2.2.1, tl q.2.2.2))
        let vkeep := (List.range vnum).filter (fun i => decide (i ∈ tflat))
        .ok (⟨vnew, tnew, m.adjsrc⟩, vkeep, vdel)

/-- Ascending sort of a face's three indices (`cupy.sort(allt, axis=1)`
applied to one row): the canonical key used for uniqueness grouping. -/
def sort3 (f : Tri3) : Tri3 :=
  let lo := min f.1 (min f.2.1 f.2.2)
  let hi := max f.1 (max f.2.1 f.2.2)
  (lo, f.1 + f.2.1 + f.2.2 - lo - hi, hi)

/-- The four oriented faces of one tetra in the block order of the
`cupy.vstack` in `boundary_tria`: index patterns `[3,1,2]`, `[2,0,3]`,
`[1,3,0]`, `[0,2,1]`. -/
def tetFaceB (b : ℕ) (tet : Tet4) : Tri3 :=
  match b with
  | 0 => (tet.2.2.2, tet.2.1, tet.2.2.1)
  | 1 => (tet.2.2.1, tet.1, tet.2.2.2)
  | 2 => (tet.2.1, tet.2.2.2, tet.1)
  | _ => (tet.1, tet.2.2.1, tet.2.1)

/-- `allt`: the `cupy.vstack` of the four face blocks, one block per
omitted vertex, each block running over all tetras in order. -/
def allFaces (t : List Tet4) : List Tri3 :=
  t.map (tetFaceB 0) ++ t.map (tetFaceB 1) ++ t.map (tetFaceB 2) ++ t.map (tetFaceB 3)

/-- `allts`: the canonical keys of all generated faces. -/
def faceKeys (t : List Tet4) : List Tri3 :=
  (allFaces t).map sort3

/-- Lexicographic order on canonical keys, the row order in which
`cupy.unique` returns the distinct sorted rows. -/
def triLe (p q : Tri3) : Prop :=
  p.1 < q.1 ∨ (p.1 = q.1 ∧ (p.2.1 < q.2.1 ∨ (p.2.1 = q.2.1 ∧ p.2.2 ≤ q.2.2)))

instance : DecidableRel triLe := fun p q => by
  unfold triLe
  infer_instance

/-- The positions `indices[count == 1]` computed by `boundary_tria`:
for each distinct canonical key (in the sorted order `cupy.unique`
produces) whose multiplicity among all generated faces is exactly one,
the position of its first (and only) occurrence. -/
def boundaryIdx (t : List Tet4) : List ℕ :=
  ((List.insertionSort triLe (faceKeys t).dedup).filter
    (fun r => decide ((faceKeys t).count r = 1))).map
    (fun r => (faceKeys t).indexOf r)

/-- `tria = allt[indices[count == 1]]`: the retained boundary faces, kept
as their original oriented triples. -/
def boundaryTria (t : List Tet4) : List Tri3 :=
  (boundaryIdx t).map (fun p => (allFaces t).getD p (0, 0, 0))

/-- The `tetfunc` branch of `boundary_tria`: the boundary faces together
with the parallel scalar array `tetfunc[alltidx[indices[count == 1]]]`,
where `alltidx = tile(arange(m), 4)` sends position `p` to tetra
`p % m`. -/
def boundaryTriaF (t : List Tet4) (f : List ℚ) : List Tri3 × List ℚ :=
  ((boundaryIdx t).map (fun p => (allFaces t).getD p (0, 0, 0)),
   (boundaryIdx t).map (fun p => f.getD (p % t.length) 0))

/-- The strict upper triangle of the cached adjacency matrix in
coordinate form (`sparse.triu(self.adj_sym, 1, format="coo")`): the pairs
`(u, w)` with `u < w` and a nonzero entry, each listed once.  The matrix
dimension is one more than the largest index occurring in the source
tetra array. -/
def upperEdges (ts : List Tet4) : List (ℕ × ℕ) :=
  (List.range (tetMaxVal ts + 1)).flatMap (fun u =>
    ((List.range (tetMaxVal ts + 1)).filter
      (fun w => decide (u < w ∧ adjEntry ts u w ≠ 0))).map (fun w => (u, w)))

/-- Euclidean length of one edge, from the current vertex coordinates. -/
noncomputable def edgeLen (v : List Vec3) (e : ℕ × ℕ) : ℝ :=
  Real.sqrt ((((vget v e.1).1 - (vget v e.2).1 : ℚ) : ℝ) ^ 2 +
    (((vget v e.1).2.1 - (vget v e.2).2.1 : ℚ) : ℝ) ^ 2 +
    (((vget v e.1).2.2 - (vget v e.2).2.2 : ℚ) : ℝ) ^ 2)

/-- `avg_edge_length`: the mean of the edge lengths over the strict upper
triangle of the cached adjacency.  The code computes `edgelens.mean()`
unconditionally; on an edge-free mesh that cupy mean of an empty array
silently evaluates to NaN (no exception), modelled here as `none`. -/
noncomputable def avgEdgeLength (m : TetMesh) : Option ℝ :=
  let es := upperEdges m.adjsrc
  if es = [] then none
  else some ((es.map (edgeLen m.v)).sum / es.length)

/-- Whether `u` and `w` are the two endpoints of one of the six edges of
the tetra, in either order.  Modelled from the spec: "the number of
tetrahedra in which u and v are both endpoints of a shared edge". -/
def isTetEdge (tet : Tet4) (u w : ℕ) : Prop :=
  let a := tet.1
  let b := tet.2.1
  let c := tet.2.2.1
  let d := tet.2.2.2
  (u = a ∧ w = b) ∨ (u = b ∧ w = a) ∨
  (u = b ∧ w = c) ∨ (u = c ∧ w = b) ∨
  (u = c ∧ w = a) ∨ (u = a ∧ w = c) ∨
  (u = a ∧ w = d) ∨ (u = b ∧ w = d) ∨
  (u = c ∧ w = d) ∨ (u = d ∧ w = a) ∨
  (u = d ∧ w = b) ∨ (u = d ∧ w = c)

instance (tet : Tet4) (u w : ℕ) : Decidable (isTetEdge tet u w) := by
  unfold isTetEdge
  infer_instance

/-- Modelled from the spec: the number of tetrahedra in which `u` and `w`
are both endpoints of a shared edge (the quantity the spec asserts the
adjacency entry equals). -/
def tetrasWithEdge (ts : List Tet4) (u w : ℕ) : ℕ :=
  ts.countP (fun tet => decide (isTetEdge tet u w))

/-- All four indices of a tetra are pairwise distinct (a non-degenerate
tetra). -/
def pairwiseDistinct (tet : Tet4) : Prop :=
  tet.1 ≠ tet.2.1 ∧ tet.1 ≠ tet.2.2.1 ∧ tet.1 ≠ tet.2.2.2 ∧
  tet.2.1 ≠ tet.2.2.1 ∧ tet.2.1 ≠ tet.2.2.2 ∧ tet.2.2.1 ≠ tet.2.2.2

instance (tet : Tet4) : Decidable (pairwiseDistinct tet) := by
  unfold pairwiseDistinct
  infer_instance

/-- The vertex array of the standard positively-oriented tetrahedron,
used as a concrete input by several witnesses. -/
def vW : List Vec3 :=
  [(0, 0, 0), (1, 0, 0), (0, 1, 0), (0, 0, 1)]

/-!  Helper lemmas about the fold-based maximum and minimum used by the
`is_oriented` branch cascade. -/

lemma foldl_max_lt_iff {x c : ℚ} {xs : List ℚ} :
    xs.foldl max x < c ↔ x < c ∧ ∀ y ∈ xs, y < c := by
  induction xs generalizing x with
  | nil => simp
  | cons y ys ih =>
    simp only [List.foldl_cons, ih, max_lt_iff, List.mem_cons]
    constructor
    · rintro ⟨⟨hx, hy⟩, h⟩
      refine ⟨hx, fun z hz => ?_⟩
      rcases hz with rfl | hz
      · exact hy
      · exact h z hz
    · rintro ⟨hx, h⟩
      exact ⟨⟨hx, h y (Or.inl rfl)⟩, fun z hz => h z (Or.inr hz)⟩

lemma lt_foldl_min_iff {x c : ℚ} {xs : List ℚ} :
    c < xs.foldl min x ↔ c < x ∧ ∀ y ∈ xs, c < y := by
  induction xs generalizing x with
  | nil => simp
  | cons y ys ih =>
    simp only [List.foldl_cons, ih, lt_min_iff, List.mem_cons]
    constructor
    · rintro ⟨⟨hx, hy⟩, h⟩
      refine ⟨hx, fun z hz => ?_⟩
      rcases hz with rfl | hz
      · exact hy
      · exact h z hz
    · rintro ⟨hx, h⟩
      exact ⟨⟨hx, h y (Or.inl rfl)⟩, fun z hz => h z (Or.inr hz)⟩

lemma mem_vols {v : List Vec3} {tt0 : Tet4} {ts : List Tet4} {y : ℚ} :
    y ∈ signedVol v tt0 :: ts.map (signedVol v) ↔
      ∃ tet ∈ tt0 :: ts, signedVol v tet = y := by
  constructor
  · intro h
    rcases List.mem_cons.mp h with rfl | h
    · exact ⟨tt0, List.mem_cons_self _ _, rfl⟩
    · obtain ⟨tet, htet, rfl⟩ := List.mem_map.mp h
      exact ⟨tet, List.mem_cons_of_mem _ htet, rfl⟩
  · rintro ⟨tet, htet, rfl⟩
    rcases List.mem_cons.mp htet with rfl | htet
    · exact List.mem_cons_self _ _
    · exact List.mem_cons_of_mem _ (List.mem_map_of_mem _ htet)

/-!  Characterization of the four branches of `is_oriented`. -/

lemma isOriented_correct_iff (v : List Vec3) (tt0 : Tet4) (ts : List Tet4) :
    isOriented v (tt0 :: ts) = some (true, OrientDiag.correct) ↔
      ∀ tet ∈ tt0 :: ts, 0 < signedVol v tet := by
  simp only [isOriented]
  split_ifs with hc1 hc2
  · refine iff_of_false (by simp) ?_
    intro h
    have hlt := (foldl_max_lt_iff.mp hc1).1
    exact absurd (h tt0 (List.mem_cons_self _ _)) (not_lt.mpr hlt.le)
  · refine iff_of_true rfl ?_
    intro tet htet
    have h := lt_foldl_min_iff.mp hc2
    rcases List.mem_cons.mp htet with rfl | htet
    · exact h.1
    · exact h.2 _ (List.mem_map_of_mem _ htet)
  all_goals
    refine iff_of_false (by simp) ?_
  all_goals
    intro h
    apply hc2
    exact lt_foldl_min_iff.mpr ⟨h tt0 (List.mem_cons_self _ _), fun y hy => by
      obtain ⟨tet, htet, rfl⟩ := List.mem_map.mp hy
      exact h tet (List.mem_cons_of_mem _ htet)⟩

lemma isOriented_flipped (v : List Vec3) (tt0 : Tet4) (ts : List Tet4)
    (h : ∀ tet ∈ tt0 :: ts, signedVol v tet < 0) :
    isOriented v (tt0 :: ts) = some (false, OrientDiag.flipped) := by
  simp only [isOriented]
  rw [if_pos]
  exact foldl_max_lt_iff.mpr ⟨h tt0 (List.mem_cons_self _ _), fun y hy => by
    obtain ⟨tet, htet, rfl⟩ := List.mem_map.mp hy
    exact h tet (List.mem_cons_of_mem _ htet)⟩

lemma isOriented_degenerate (v : List Vec3) (tt0 : Tet4) (ts : List Tet4)
    (h0 : ∃ tet ∈ tt0 :: ts, signedVol v tet = 0) :
    isOriented v (tt0 :: ts) = some (false, OrientDiag.degenerate) := by
  obtain ⟨tz, hz, hz0⟩ := h0
  have hzmem : (0 : ℚ) ∈ signedVol v tt0 :: ts.map (signedVol v) :=
    mem_vols.mpr ⟨tz, hz, hz0⟩
  simp only [isOriented]
  split_ifs with hc1 hc2 hc3
  · exfalso
    have := foldl_max_lt_iff.mp hc1
    rcases List.mem_cons.mp hzmem with h | h
    · exact absurd this.1 (by rw [← h]; exact lt_irrefl 0)
    · exact absurd (this.2 0 h) (lt_irrefl 0)
  · exfalso
    have := lt_foldl_min_iff.mp hc2
    rcases List.mem_cons.mp hzmem with h | h
    · exact absurd this.1 (by rw [← h]; exact lt_irrefl 0)
    · exact absurd (this.2 0 h) (lt_irrefl 0)
  · rfl
  · exfalso
    apply hc3
    refine lt_of_le_of_ne (List.countP_le_length _) ?_
    intro hlen
    have := (List.countP_eq_length.mp hlen) 0 hzmem
    simp at this

lemma isOriented_notUniform (v : List Vec3) (tt0 : Tet4) (ts : List Tet4)
    (hp : ∃ tet ∈ tt0 :: ts, 0 < signedVol v tet)
    (hn : ∃ tet ∈ tt0 :: ts, signedVol v tet < 0)
    (h0 : ∀ tet ∈ tt0 :: ts, signedVol v tet ≠ 0) :
    isOriented v (tt0 :: ts) = some (false, OrientDiag.notUniform) := by
  obtain ⟨tp, hpmem, hppos⟩ := hp
  obtain ⟨tn, hnmem, hnneg⟩ := hn
  simp only [isOriented]
  split_ifs with hc1 hc2 hc3
  · exfalso
    have := foldl_max_lt_iff.mp hc1
    have hmem : signedVol v tp ∈ signedVol v tt0 :: ts.map (signedVol v) :=
      mem_vols.mpr ⟨tp, hpmem, rfl⟩
    rcases List.mem_cons.mp hmem with h | h
    · rw [h] at hppos
      exact absurd this.1 (not_lt.mpr hppos.le)
    · exact absurd (this.2 _ h) (not_lt.mpr hppos.le)
  · exfalso
    have := lt_foldl_min_iff.mp hc2
    have hmem : signedVol v tn ∈ signedVol v tt0 :: ts.map (signedVol v) :=
      mem_vols.mpr ⟨tn, hnmem, rfl⟩
    rcases List.mem_cons.mp hmem with h | h
    · rw [h] at hnneg
      exact absurd this.1 (not_lt.mpr hnneg.le)
    · exact absurd (this.2 _ h) (not_lt.mpr hnneg.le)
  · exfalso
    have hall : ∀ y ∈ signedVol v tt0 :: ts.map (signedVol v), decide (y ≠ 0) = true := by
      intro y hy
      obtain ⟨tet, htet, rfl⟩ := mem_vols.mp hy
      simpa using h0 tet htet
    rw [List.countP_eq_length.mpr hall] at hc3
    exact lt_irrefl _ hc3
  · rfl

/-- C1: `is_oriented` computes each tetra's signed volume `e3 . (e0 x e2)`
(the definition `signedVol`), returns true exactly when every signed
volume is strictly positive, and returns false with the `flipped`
diagnostic when all are negative, with the `degenerate` diagnostic when
some signed volume is exactly zero, and with the `notUniform` diagnostic
when the signs are mixed without a zero — four mutually distinguishable
outcomes. -/
theorem claim_C1_is_oriented_classification (v : List Vec3) (t : List Tet4)
    (hne : t ≠ []) :
    (isOriented v t = some (true, OrientDiag.correct) ↔
      ∀ tet ∈ t, 0 < signedVol v tet) ∧
    ((∀ tet ∈ t, signedVol v tet < 0) →
      isOriented v t = some (false, OrientDiag.flipped)) ∧
    ((∃ tet ∈ t, signedVol v tet = 0) →
      isOriented v t = some (false, OrientDiag.degenerate)) ∧
    ((∃ tet ∈ t, 0 < signedVol v tet) → (∃ tet ∈ t, signedVol v tet < 0) →
      (∀ tet ∈ t, signedVol v tet ≠ 0) →
      isOriented v t = some (false, OrientDiag.notUniform)) := by
  obtain ⟨tt0, ts, rfl⟩ := List.exists_cons_of_ne_nil hne
  exact ⟨isOriented_correct_iff v tt0 ts,
    isOriented_flipped v tt0 ts,
    isOriented_degenerate v tt0 ts,
    fun hp hn h0 => isOriented_notUniform v tt0 ts hp hn h0⟩

/-- C1 witness: the classification evaluated on a concrete one-tetra mesh
(the standard positively-oriented tetra), whose signed volume is 1. -/
theorem claim_C1_witness :
    ([((0 : ℕ), 1, 2, 3)] : List Tet4) ≠ [] ∧
    (isOriented [((0 : ℚ), 0, 0), (1, 0, 0), (0, 1, 0), (0, 0, 1)] [(0, 1, 2, 3)] =
        some (true, OrientDiag.correct) ↔
      ∀ tet ∈ [((0 : ℕ), 1, 2, 3)],
        0 < signedVol [((0 : ℚ), 0, 0), (1, 0, 0), (0, 1, 0), (0, 0, 1)] tet) :=
  ⟨by decide,
   (claim_C1_is_oriented_classification
     [((0 : ℚ), 0, 0), (1, 0, 0), (0, 1, 0), (0, 0, 1)] [(0, 1, 2, 3)] (by decide)).1⟩

/-!  Lemmas about the directed pair lists feeding the sparse adjacency
constructor. -/

lemma tetPairs_count_swap12 (tet : Tet4) (p : ℕ × ℕ) :
    (tetPairs (swap12 tet)).count p = (tetPairs tet).count p := by
  obtain ⟨a, b, c, d⟩ := tet
  simp only [tetPairs, swap12, List.count_cons, List.count_nil, beq_iff_eq]
  ring

lemma tetPairs_count_symm (tet : Tet4) (u w : ℕ) :
    (tetPairs tet).count (u, w) = (tetPairs tet).count (w, u) := by
  obtain ⟨a, b, c, d⟩ := tet
  simp only [tetPairs, List.count_cons, List.count_nil, beq_iff_eq, Prod.mk.injEq,
    and_comm]
  ring

lemma tetPairs_mem_iff (tet : Tet4) (u w : ℕ) :
    (u, w) ∈ tetPairs tet ↔ isTetEdge tet u w := by
  obtain ⟨a, b, c, d⟩ := tet
  simp [tetPairs, isTetEdge, Prod.mk.injEq]

lemma tetPairs_nodup (tet : Tet4) (h : pairwiseDistinct tet) :
    (tetPairs tet).Nodup := by
  obtain ⟨a, b, c, d⟩ := tet
  obtain ⟨h1, h2, h3, h4, h5, h6⟩ := h
  have g1 : a ≠ b := h1
  have g2 : a ≠ c := h2
  have g3 : a ≠ d := h3
  have g4 : b ≠ c := h4
  have g5 : b ≠ d := h5
  have g6 : c ≠ d := h6
  show ([(a, b), (b, a), (b, c), (c, b), (c, a), (a, c),
    (a, d), (b, d), (c, d), (d, a), (d, b), (d, c)] : List (ℕ × ℕ)).Nodup
  simp only [List.nodup_cons, List.mem_cons, List.not_mem_nil,
    List.mem_singleton, Prod.mk.injEq, List.nodup_nil, and_true, true_and,
    not_false_iff, not_or]
  refine ⟨?_, ?_, ?_, ?_, ?_, ?_, ?_, ?_, ?_, ?_, ?_⟩ <;> omega

lemma count_eq_one_of_nodup_mem {γ : Type} [BEq γ] [LawfulBEq γ] {x0 : γ} :
    ∀ {l : List γ}, l.Nodup → x0 ∈ l → l.count x0 = 1 := by
  intro l
  induction l with
  | nil => intro _ hmm0; cases hmm0
  | cons x xs ih =>
    intro hnd hm
    obtain ⟨hx, hnd2⟩ := List.nodup_cons.mp hnd
    rw [List.count_cons]
    by_cases hb : (x == x0) = true
    · have hxx : x = x0 := by simpa using hb
      subst hxx
      rw [if_pos hb, List.count_eq_zero.mpr hx]
    · have hxne : x ≠ x0 := by simpa using hb
      have hm2 : x0 ∈ xs := by
        rcases List.mem_cons.mp hm with rfl | hm2
        · exact absurd rfl hxne
        · exact hm2
      rw [if_neg hb, ih hnd2 hm2]

lemma tetPairs_count_distinct (tet : Tet4) (h : pairwiseDistinct tet) (u w : ℕ) :
    (tetPairs tet).count (u, w) = if isTetEdge tet u w then 1 else 0 := by
  by_cases he : isTetEdge tet u w
  · rw [if_pos he]
    exact count_eq_one_of_nodup_mem (tetPairs_nodup tet h)
      ((tetPairs_mem_iff tet u w).mpr he)
  · rw [if_neg he]
    exact List.count_eq_zero.mpr fun hmem => he ((tetPairs_mem_iff tet u w).mp hmem)

lemma adjEntry_symm (ts : List Tet4) (u w : ℕ) :
    adjEntry ts u w = adjEntry ts w u := by
  unfold adjEntry
  rw [List.count_flatMap, List.count_flatMap]
  congr 1
  refine List.map_congr_left fun tet _ => ?_
  simp only [Function.comp_apply]
  exact tetPairs_count_symm tet u w

lemma adjEntry_distinct (ts : List Tet4) (h : ∀ tet ∈ ts, pairwiseDistinct tet)
    (u w : ℕ) : adjEntry ts u w = tetrasWithEdge ts u w := by
  induction ts with
  | nil => rfl
  | cons tet ts ih =>
    unfold adjEntry tetrasWithEdge
    rw [List.flatMap_cons, List.count_append, List.countP_cons]
    rw [tetPairs_count_distinct tet (h tet (List.mem_cons_self _ _)) u w]
    have ih2 := ih (fun x hx => h x (List.mem_cons_of_mem _ hx))
    unfold adjEntry tetrasWithEdge at ih2
    rw [ih2]
    simp only [decide_eq_true_eq]
    ring

lemma adjEntry_orientT (v : List Vec3) (t : List Tet4) (u w : ℕ) :
    adjEntry (orientT v t) u w = adjEntry t u w := by
  unfold adjEntry orientT
  rw [List.count_flatMap, List.count_flatMap, List.map_map]
  congr 1
  refine List.map_congr_left fun tet _ => ?_
  simp only [Function.comp_apply]
  split_ifs with h
  · exact tetPairs_count_swap12 tet (u, w)
  · rfl

lemma initTetMesh_ok (v : List Vec3) (t : List Tet4) (m2 : TetMesh)
    (h : initTetMesh v t = .ok m2) : m2 = ⟨v, t, t⟩ := by
  cases t with
  | nil => simp [initTetMesh] at h
  | cons a l =>
    rw [initTetMesh] at h
    by_cases hge : tetMaxVal (a :: l) ≥ max v.length 3
    · rw [if_pos hge] at h
      cases h
    · rw [if_neg hge] at h
      exact (Except.ok.inj h).symm

/-!  Concrete evaluations on the witness mesh (rational arithmetic is not
kernel-reducible, so these are established by `norm_num`). -/

lemma signedVol_vW_pos : signedVol vW (0, 1, 2, 3) = 1 := by
  norm_num [signedVol, vget, dot, cross, vsub, vW]

lemma signedVol_vW_neg : signedVol vW (0, 2, 1, 3) = -1 := by
  norm_num [signedVol, vget, dot, cross, vsub, vW]

lemma negCount_vW : negCount vW [(0, 2, 1, 3)] = 1 := by
  simp [negCount, List.countP_cons, signedVol_vW_neg]

lemma orientT_vW : orientT vW [(0, 2, 1, 3)] = [(0, 1, 2, 3)] := by
  simp [orientT, signedVol_vW_neg, swap12]

lemma orientMesh_vW :
    orientMesh ⟨vW, [(0, 2, 1, 3)], [(0, 2, 1, 3)]⟩ =
      .ok (⟨vW, [(0, 1, 2, 3)], [(0, 1, 2, 3)]⟩, 1) := by
  rw [orientMesh, negCount_vW, orientT_vW]
  decide

/-- C2 counterexample: on the degenerate (repeated-vertex) tetra
`(0, 1, 0, 1)` the duplicate-key summation makes the `(0, 1)` adjacency
entry 4, while only one tetrahedron contains `0` and `1` as endpoints of
a shared edge — so the claimed equality with the tetra count fails. -/
theorem claim_C2_counterexample :
    adjEntry [((0 : ℕ), 1, 0, 1)] 0 1 = 4 ∧
    tetrasWithEdge [((0 : ℕ), 1, 0, 1)] 0 1 = 1 := by
  decide

/-- C2 (amended): the adjacency built by `construct_adj_sym` is
symmetric for every mesh, degenerate tetras included; on meshes whose
tetras each have four pairwise-distinct vertices its `(u, w)` entry
additionally equals the number of tetrahedra in which `u` and `w` are
endpoints of a shared edge (hence zero for pairs that are no tetra
edge). -/
theorem claim_C2_adjacency :
    (∀ (ts : List Tet4) (u w : ℕ), adjEntry ts u w = adjEntry ts w u) ∧
    (∀ (ts : List Tet4), (∀ tet ∈ ts, pairwiseDistinct tet) →
      ∀ u w, adjEntry ts u w = tetrasWithEdge ts u w) :=
  ⟨fun ts u w => adjEntry_symm ts u w,
   fun ts h u w => adjEntry_distinct ts h u w⟩

/-- C2 witness: unconditional symmetry evaluated on the degenerate
repeated-vertex mesh itself, and the edge-count equality on a concrete
distinct-vertex one-tetra mesh. -/
theorem claim_C2_witness :
    adjEntry [((0 : ℕ), 1, 0, 1)] 0 1 = adjEntry [((0 : ℕ), 1, 0, 1)] 1 0 ∧
    (∀ tet ∈ [((0 : ℕ), 1, 2, 3)], pairwiseDistinct tet) ∧
    adjEntry [((0 : ℕ), 1, 2, 3)] 0 1 = tetrasWithEdge [((0 : ℕ), 1, 2, 3)] 0 1 :=
  ⟨claim_C2_adjacency.1 [((0 : ℕ), 1, 0, 1)] 0 1,
   by decide,
   claim_C2_adjacency.2 [((0 : ℕ), 1, 2, 3)] (by decide) 0 1⟩

/-- C4: the bug witnessed.  With two vertices, `vnum = max(self.v.shape)`
is `max 2 3 = 3`, so the tetra `(0, 1, 2, 2)` — whose maximum index 2
equals the vertex count and therefore must be rejected according to the
claim and the constructor docstring — is accepted: construction
succeeds. -/
theorem claim_C4_validation_bug :
    tetMaxVal [((0 : ℕ), 1, 2, 2)] ≥
      ([((0 : ℚ), 0, 0), (1, 1, 1)] : List Vec3).length ∧
    initTetMesh [((0 : ℚ), 0, 0), (1, 1, 1)] [(0, 1, 2, 2)] =
      .ok ⟨[(0, 0, 0), (1, 1, 1)], [(0, 1, 2, 2)], [(0, 1, 2, 2)]⟩ := by
  decide

/-- C7: the bug witnessed.  The mesh with two vertices both referenced by
its single tetra has no free vertex — the vertex count equals the number
of distinct referenced indices — yet `has_free_vertices` compares
`max(self.v.shape) = 3` with 2 and answers true. -/
theorem claim_C7_free_vertices_bug :
    ((⟨[(0, 0, 0), (1, 1, 1)], [(0, 1, 1, 0)], [(0, 1, 1, 0)]⟩ : TetMesh).v).length =
      numDistinct [((0 : ℕ), 1, 1, 0)] ∧
    hasFreeVertices ⟨[(0, 0, 0), (1, 1, 1)], [(0, 1, 1, 0)], [(0, 1, 1, 0)]⟩ = true := by
  decide

/-- C10: `orient_` leaves the adjacency matrix unchanged as a matrix:
the swap of a tetra's second and third index permutes its 12 emitted
directed pairs, so every entry of the rebuilt adjacency agrees with the
old one; at mesh level, whenever `orient_` succeeds on a mesh whose
cached adjacency matches its tetra array, the cached adjacency after the
call is entrywise equal to the one before. -/
theorem claim_C10_adjacency_preserved :
    (∀ (v : List Vec3) (t : List Tet4) (u w : ℕ),
      adjEntry (orientT v t) u w = adjEntry t u w) ∧
    (∀ (m m2 : TetMesh) (c : ℕ), m.adjsrc = m.t → orientMesh m = .ok (m2, c) →
      ∀ u w, adjEntry m2.adjsrc u w = adjEntry m.adjsrc u w) := by
  constructor
  · exact fun v t u w => adjEntry_orientT v t u w
  · intro m m2 c hc h u w
    unfold orientMesh at h
    split_ifs at h with h0
    · simp only [Except.ok.injEq, Prod.mk.injEq] at h
      obtain ⟨rfl, rfl⟩ := h
      rfl
    · cases hini : initTetMesh m.v (orientT m.v m.t) with
      | error e =>
        rw [hini] at h
        simp [Except.map] at h
      | ok mm =>
        rw [hini] at h
        simp only [Except.map, Except.ok.injEq, Prod.mk.injEq] at h
        obtain ⟨rfl, rfl⟩ := h
        have hmm := initTetMesh_ok _ _ _ hini
        rw [hmm, hc]
        exact adjEntry_orientT m.v m.t u w

/-- C10 witness: the mesh-level statement applied to a concrete mesh with
one negative tetra (so a flip and a rebuild really happen). -/
theorem claim_C10_witness :
    (⟨vW, [(0, 2, 1, 3)], [(0, 2, 1, 3)]⟩ : TetMesh).adjsrc =
      (⟨vW, [(0, 2, 1, 3)], [(0, 2, 1, 3)]⟩ : TetMesh).t ∧
    orientMesh ⟨vW, [(0, 2, 1, 3)], [(0, 2, 1, 3)]⟩ =
      .ok (⟨vW, [(0, 1, 2, 3)], [(0, 1, 2, 3)]⟩, 1) ∧
    adjEntry [((0 : ℕ), 1, 2, 3)] 0 1 = adjEntry [((0 : ℕ), 2, 1, 3)] 0 1 :=
  ⟨rfl, orientMesh_vW,
   claim_C10_adjacency_preserved.2
     ⟨vW, [(0, 2, 1, 3)], [(0, 2, 1, 3)]⟩
     ⟨vW, [(0, 1, 2, 3)], [(0, 1, 2, 3)]⟩
     1 rfl orientMesh_vW 0 1⟩

/-!  Lemmas for the orientation repair `orient_`. -/

lemma signedVol_swap12 (v : List Vec3) (tet : Tet4) :
    signedVol v (swap12 tet) = -signedVol v tet := by
  obtain ⟨a, b, c, d⟩ := tet
  simp only [signedVol, swap12, dot, cross, vsub, vget]
  ring

lemma tetMaxOf_swap12 (tet : Tet4) : tetMaxOf (swap12 tet) = tetMaxOf tet := by
  obtain ⟨a, b, c, d⟩ := tet
  simp only [tetMaxOf, swap12]
  omega

lemma foldl_tetMax_orientT (v : List Vec3) :
    ∀ (l : List Tet4) (acc : ℕ),
      List.foldl (fun acc tet => max acc (tetMaxOf tet)) acc (orientT v l)
        = List.foldl (fun acc tet => max acc (tetMaxOf tet)) acc l := by
  intro l
  induction l with
  | nil => intro acc; rfl
  | cons tet ts ih =>
    intro acc
    have hsplit : orientT v (tet :: ts) =
        (if signedVol v tet < 0 then swap12 tet else tet) :: orientT v ts := by
      simp [orientT]
    rw [hsplit, List.foldl_cons, List.foldl_cons]
    rw [show tetMaxOf (if signedVol v tet < 0 then swap12 tet else tet) = tetMaxOf tet by
      split_ifs
      · exact tetMaxOf_swap12 tet
      · rfl]
    exact ih _

lemma tetMaxVal_orientT (v : List Vec3) (t : List Tet4) :
    tetMaxVal (orientT v t) = tetMaxVal t :=
  foldl_tetMax_orientT v t 0

lemma orientT_pos (v : List Vec3) (t : List Tet4)
    (h0 : ∀ tet ∈ t, signedVol v tet ≠ 0) :
    ∀ tet2 ∈ orientT v t, 0 < signedVol v tet2 := by
  intro tet2 h
  rw [orientT, List.mem_map] at h
  obtain ⟨tet, htet, rfl⟩ := h
  by_cases hneg : signedVol v tet < 0
  · rw [if_pos hneg, signedVol_swap12]
    linarith
  · rw [if_neg hneg]
    exact lt_of_le_of_ne (not_lt.mp hneg) (Ne.symm (h0 tet htet))

lemma initTetMesh_ok_of (v : List Vec3) (t : List Tet4) (hne : t ≠ [])
    (hlt : tetMaxVal t < max v.length 3) : initTetMesh v t = .ok ⟨v, t, t⟩ := by
  obtain ⟨a, l, rfl⟩ := List.exists_cons_of_ne_nil hne
  rw [initTetMesh]
  rw [if_neg (not_le.mpr hlt)]

/-- C3: on a valid mesh with at least one negative-volume tetra and no
zero-volume tetra, `orient_` rebuilds the mesh with exactly the negative
tetras swapped (second index with third), returns the count of negative
tetras, and `is_oriented` afterwards answers true; positionally,
zero-volume tetras are never modified by the swap map; and when no tetra
is negative, `orient_` returns 0 and leaves the mesh untouched. -/
theorem claim_C3_orient_roundtrip (v : List Vec3) (t : List Tet4) (hne : t ≠ [])
    (hidx : tetMaxVal t < max v.length 3) :
    ((∃ tet ∈ t, signedVol v tet < 0) → (∀ tet ∈ t, signedVol v tet ≠ 0) →
      orientMesh ⟨v, t, t⟩ = .ok (⟨v, orientT v t, orientT v t⟩, negCount v t) ∧
      negCount v t =
        (t.filter (fun tet => decide (signedVol v tet < 0))).length ∧
      isOriented v (orientT v t) = some (true, OrientDiag.correct)) ∧
    (∀ i, i < t.length → signedVol v (t.getD i (0, 0, 0, 0)) = 0 →
      (orientT v t).getD i (0, 0, 0, 0) = t.getD i (0, 0, 0, 0)) ∧
    ((∀ tet ∈ t, ¬ signedVol v tet < 0) →
      orientMesh ⟨v, t, t⟩ = .ok (⟨v, t, t⟩, 0)) := by
  refine ⟨?_, ?_, ?_⟩
  · intro h1 h2
    have hng : negCount v t ≠ 0 := by
      intro hc
      rw [negCount, List.countP_eq_zero] at hc
      obtain ⟨tet, htet, hv⟩ := h1
      exact absurd hv (by simpa using hc tet htet)
    have hne2 : orientT v t ≠ [] := by
      intro hcon
      apply hne
      rwa [orientT, List.map_eq_nil_iff] at hcon
    refine ⟨?_, List.countP_eq_length_filter _ _, ?_⟩
    · rw [orientMesh]
      rw [if_neg hng]
      rw [initTetMesh_ok_of v (orientT v t) hne2 (by rwa [tetMaxVal_orientT])]
      rfl
    · have hpos := orientT_pos v t h2
      obtain ⟨a2, l2, hcons⟩ := List.exists_cons_of_ne_nil hne2
      rw [hcons]
      exact (isOriented_correct_iff v a2 l2).mpr fun tet htet =>
        hpos tet (hcons ▸ htet)
  · intro i hi hz
    have ht : t.getD i (0, 0, 0, 0) = t[i] := by
      rw [List.getD_eq_getElem?_getD, List.getElem?_eq_getElem hi]
      rfl
    have h2 : (orientT v t).getD i (0, 0, 0, 0) =
        if signedVol v t[i] < 0 then swap12 t[i] else t[i] := by
      rw [orientT, List.getD_eq_getElem?_getD, List.getElem?_map,
        List.getElem?_eq_getElem hi]
      rfl
    rw [ht] at hz ⊢
    rw [h2, if_neg]
    rw [hz]
    exact lt_irrefl 0
  · intro hnon
    have h0 : negCount v t = 0 := by
      rw [negCount, List.countP_eq_zero]
      intro tet htet
      simpa using hnon tet htet
    rw [orientMesh, if_pos h0]

/-- C3 witness: the round trip on the concrete one-tetra mesh whose only
tetra has signed volume -1: the repair flips it, reports one flip, and
the repaired mesh is oriented. -/
theorem claim_C3_witness :
    ([((0 : ℕ), 2, 1, 3)] : List Tet4) ≠ [] ∧
    tetMaxVal [((0 : ℕ), 2, 1, 3)] < max vW.length 3 ∧
    ((∃ tet ∈ [((0 : ℕ), 2, 1, 3)], signedVol vW tet < 0) →
      (∀ tet ∈ [((0 : ℕ), 2, 1, 3)], signedVol vW tet ≠ 0) →
      orientMesh ⟨vW, [(0, 2, 1, 3)], [(0, 2, 1, 3)]⟩ =
        .ok (⟨vW, orientT vW [(0, 2, 1, 3)], orientT vW [(0, 2, 1, 3)]⟩,
          negCount vW [(0, 2, 1, 3)]) ∧
      negCount vW [(0, 2, 1, 3)] =
        (([((0 : ℕ), 2, 1, 3)] : List Tet4).filter
          (fun tet => decide (signedVol vW tet < 0))).length ∧
      isOriented vW (orientT vW [(0, 2, 1, 3)]) = some (true, OrientDiag.correct)) :=
  ⟨by decide, by decide,
   (claim_C3_orient_roundtrip vW [(0, 2, 1, 3)] (by decide) (by decide)).1⟩

/-!  The adjacency cache across the two mutating operations. -/

lemma rmFree_adjsrc (m : TetMesh) (r : TetMesh × List ℕ × List ℕ)
    (h : rmFree m = .ok r) : r.1.adjsrc = m.adjsrc := by
  unfold rmFree at h
  split at h
  · exact Except.noConfusion h
  · simp only [ge_iff_le] at h
    split_ifs at h
    · obtain rfl := (Except.ok.inj h).symm
      rfl
    · obtain rfl := (Except.ok.inj h).symm
      rfl

lemma orientMesh_consistent (m m2 : TetMesh) (c : ℕ) (hc : m.adjsrc = m.t)
    (h : orientMesh m = .ok (m2, c)) : m2.adjsrc = m2.t := by
  unfold orientMesh at h
  split_ifs at h with h0
  · simp only [Except.ok.injEq, Prod.mk.injEq] at h
    obtain ⟨rfl, rfl⟩ := h
    exact hc
  · cases hini : initTetMesh m.v (orientT m.v m.t) with
    | error e =>
      rw [hini] at h
      simp [Except.map] at h
    | ok mm =>
      rw [hini] at h
      simp only [Except.map, Except.ok.injEq, Prod.mk.injEq] at h
      obtain ⟨rfl, rfl⟩ := h
      rw [initTetMesh_ok _ _ _ hini]

/-- C6 counterexample: on the five-vertex mesh whose single tetra
`(0, 1, 2, 4)` leaves vertex 3 free, `rm_free_vertices_` replaces `t`
with the remapped `(0, 1, 2, 3)` but keeps the adjacency built from the
old `t`; the cached entry at `(3, 0)` is 0 while the adjacency freshly
constructed from the new `t` has 1 there — so the invariant claimed for
every topology-mutating operation fails. -/
theorem claim_C6_counterexample :
    rmFree ⟨[((0 : ℚ), 0, 0), (1, 0, 0), (2, 0, 0), (3, 0, 0), (4, 0, 0)],
        [(0, 1, 2, 4)], [(0, 1, 2, 4)]⟩ =
      .ok (⟨[(0, 0, 0), (1, 0, 0), (2, 0, 0), (4, 0, 0)], [(0, 1, 2, 3)],
        [(0, 1, 2, 4)]⟩, [0, 1, 2, 4], [3]) ∧
    adjEntry [((0 : ℕ), 1, 2, 4)] 3 0 = 0 ∧
    adjEntry [((0 : ℕ), 1, 2, 3)] 3 0 = 1 := by
  refine ⟨by decide, by decide, by decide⟩

/-- C6 (amended): `orient_` does keep the cached adjacency consistent
with the current tetra array (it rebuilds through the constructor, or
mutates nothing), but `rm_free_vertices_` does not rebuild it: the cache
after compaction is still the adjacency of the pre-compaction tetra
array, which in general differs from one freshly constructed from the
new `t`. -/
theorem claim_C6_adjacency_cache :
    (∀ (m m2 : TetMesh) (c : ℕ), m.adjsrc = m.t → orientMesh m = .ok (m2, c) →
      m2.adjsrc = m2.t) ∧
    (∀ (m : TetMesh) (r : TetMesh × List ℕ × List ℕ), rmFree m = .ok r →
      r.1.adjsrc = m.adjsrc) :=
  ⟨orientMesh_consistent, rmFree_adjsrc⟩

/-- C6 witness: both amended statements applied at concrete meshes — an
orientation repair that really flips, and a compaction that really
deletes a vertex. -/
theorem claim_C6_witness :
    ((⟨vW, [(0, 2, 1, 3)], [(0, 2, 1, 3)]⟩ : TetMesh).adjsrc =
        (⟨vW, [(0, 2, 1, 3)], [(0, 2, 1, 3)]⟩ : TetMesh).t ∧
      orientMesh ⟨vW, [(0, 2, 1, 3)], [(0, 2, 1, 3)]⟩ =
        .ok (⟨vW, [(0, 1, 2, 3)], [(0, 1, 2, 3)]⟩, 1) ∧
      (⟨vW, [(0, 1, 2, 3)], [(0, 1, 2, 3)]⟩ : TetMesh).adjsrc =
        (⟨vW, [(0, 1, 2, 3)], [(0, 1, 2, 3)]⟩ : TetMesh).t) ∧
    (rmFree ⟨[((0 : ℚ), 0, 0), (1, 0, 0), (2, 0, 0), (3, 0, 0), (4, 0, 0)],
        [(0, 1, 2, 4)], [(0, 1, 2, 4)]⟩ =
      .ok (⟨[(0, 0, 0), (1, 0, 0), (2, 0, 0), (4, 0, 0)], [(0, 1, 2, 3)],
        [(0, 1, 2, 4)]⟩, [0, 1, 2, 4], [3]) ∧
      (⟨[((0 : ℚ), 0, 0), (1, 0, 0), (2, 0, 0), (4, 0, 0)], [(0, 1, 2, 3)],
        [(0, 1, 2, 4)]⟩ : TetMesh).adjsrc =
        (⟨[((0 : ℚ), 0, 0), (1, 0, 0), (2, 0, 0), (3, 0, 0), (4, 0, 0)],
          [(0, 1, 2, 4)], [(0, 1, 2, 4)]⟩ : TetMesh).adjsrc) :=
  ⟨⟨rfl, orientMesh_vW,
    claim_C6_adjacency_cache.1 ⟨vW, [(0, 2, 1, 3)], [(0, 2, 1, 3)]⟩
      ⟨vW, [(0, 1, 2, 3)], [(0, 1, 2, 3)]⟩ 1 rfl orientMesh_vW⟩,
   ⟨by decide,
    claim_C6_adjacency_cache.2
      ⟨[((0 : ℚ), 0, 0), (1, 0, 0), (2, 0, 0), (3, 0, 0), (4, 0, 0)],
        [(0, 1, 2, 4)], [(0, 1, 2, 4)]⟩
      (⟨[(0, 0, 0), (1, 0, 0), (2, 0, 0), (4, 0, 0)], [(0, 1, 2, 3)],
        [(0, 1, 2, 4)]⟩, [0, 1, 2, 4], [3])
      (by decide)⟩⟩

/-!  Lemmas for the edge extraction of `avg_edge_length`. -/

lemma le_foldl_tetMax (l : List Tet4) :
    ∀ (acc : ℕ), acc ≤ l.foldl (fun a x => max a (tetMaxOf x)) acc := by
  induction l with
  | nil => intro acc; exact le_refl _
  | cons x xs ih => intro acc; exact le_trans (le_max_left _ _) (ih _)

lemma tetMaxOf_le_foldl (tet : Tet4) :
    ∀ (l : List Tet4) (acc : ℕ), tet ∈ l →
      tetMaxOf tet ≤ l.foldl (fun a x => max a (tetMaxOf x)) acc := by
  intro l
  induction l with
  | nil => intro acc h; cases h
  | cons x xs ih =>
    intro acc h
    rcases List.mem_cons.mp h with rfl | hx
    · calc tetMaxOf tet ≤ max acc (tetMaxOf tet) := le_max_right _ _
        _ ≤ _ := le_foldl_tetMax xs _
    · exact ih _ hx

lemma adjEntry_ne_zero_bounds (ts : List Tet4) (u w : ℕ)
    (h : adjEntry ts u w ≠ 0) :
    u ≤ tetMaxVal ts ∧ w ≤ tetMaxVal ts := by
  rw [adjEntry] at h
  have hm : (u, w) ∈ ts.flatMap tetPairs := by
    by_contra hc
    exact h (List.count_eq_zero.mpr hc)
  rw [List.mem_flatMap] at hm
  obtain ⟨tet, htet, hp⟩ := hm
  have hb : tetMaxOf tet ≤ tetMaxVal ts := tetMaxOf_le_foldl tet ts 0 htet
  rw [tetPairs_mem_iff] at hp
  obtain ⟨a, b, c, d⟩ := tet
  have hb2 : max (max a b) (max c d) ≤ tetMaxVal ts := hb
  have hp2 : (u = a ∧ w = b) ∨ (u = b ∧ w = a) ∨
      (u = b ∧ w = c) ∨ (u = c ∧ w = b) ∨
      (u = c ∧ w = a) ∨ (u = a ∧ w = c) ∨
      (u = a ∧ w = d) ∨ (u = b ∧ w = d) ∨
      (u = c ∧ w = d) ∨ (u = d ∧ w = a) ∨
      (u = d ∧ w = b) ∨ (u = d ∧ w = c) := hp
  omega

lemma mem_upperEdges (ts : List Tet4) (u w : ℕ) :
    (u, w) ∈ upperEdges ts ↔ u < w ∧ adjEntry ts u w ≠ 0 := by
  rw [upperEdges]
  simp only [List.mem_flatMap, List.mem_map, List.mem_filter, List.mem_range,
    decide_eq_true_eq]
  constructor
  · rintro ⟨u2, hu2, w2, ⟨hw2r, hcond⟩, heq⟩
    obtain ⟨h1, h2⟩ := Prod.ext_iff.mp heq
    subst h1
    subst h2
    exact hcond
  · rintro ⟨hlt, hne⟩
    have hb := adjEntry_ne_zero_bounds ts u w hne
    exact ⟨u, by omega, w, ⟨by omega, hlt, hne⟩, rfl⟩

lemma nodup_upperEdges (ts : List Tet4) : (upperEdges ts).Nodup := by
  rw [upperEdges]
  rw [List.nodup_flatMap]
  constructor
  · intro u hu
    refine List.Nodup.map ?_ (List.Nodup.filter _ (List.nodup_range _))
    intro w1 w2 hww
    exact (Prod.ext_iff.mp hww).2
  · refine List.Pairwise.imp ?_ (List.pairwise_lt_range _)
    intro a b hab x hxa hxb
    obtain ⟨w1, _, rfl⟩ := List.mem_map.mp hxa
    obtain ⟨w2, _, heq⟩ := List.mem_map.mp hxb
    exact absurd ((Prod.ext_iff.mp heq).1) (Nat.ne_of_gt hab)

/-- C9 counterexample: the one-vertex mesh with the degenerate tetra
`(0, 0, 0, 0)` is constructible (its maximum index 0 passes validation),
has an adjacency with no strict-upper-triangle entry — zero edges — and
`avg_edge_length` on it takes the empty-mean path, i.e. silently yields
the NaN value (modelled `none`) instead of signalling a degenerate-input
condition. -/
theorem claim_C9_counterexample :
    initTetMesh [((0 : ℚ), 0, 0)] [(0, 0, 0, 0)] =
      .ok ⟨[(0, 0, 0)], [(0, 0, 0, 0)], [(0, 0, 0, 0)]⟩ ∧
    upperEdges [((0 : ℕ), 0, 0, 0)] = [] ∧
    avgEdgeLength ⟨[(0, 0, 0)], [(0, 0, 0, 0)], [(0, 0, 0, 0)]⟩ = none := by
  refine ⟨by decide, by decide, ?_⟩
  have hempty : upperEdges [((0 : ℕ), 0, 0, 0)] = [] := by decide
  simp only [avgEdgeLength, hempty]
  rw [if_pos trivial]

/-- C9 (amended): `avg_edge_length` raises no exception; it takes each
undirected edge exactly once — the strict upper triangle of the cached
adjacency lists exactly the pairs `(u, w)` with `u < w` and a nonzero
entry, without duplicates and regardless of the entry's weight — and for
a mesh with at least one edge it returns the arithmetic mean of the
Euclidean edge lengths; with zero edges it silently produces the NaN of
an empty mean (`none`) rather than signalling. -/
theorem claim_C9_avg_edge_length :
    (∀ (m : TetMesh), (upperEdges m.adjsrc).Nodup) ∧
    (∀ (m : TetMesh) (u w : ℕ),
      (u, w) ∈ upperEdges m.adjsrc ↔ u < w ∧ adjEntry m.adjsrc u w ≠ 0) ∧
    (∀ (m : TetMesh), upperEdges m.adjsrc ≠ [] →
      avgEdgeLength m =
        some (((upperEdges m.adjsrc).map (edgeLen m.v)).sum /
          (upperEdges m.adjsrc).length)) := by
  refine ⟨fun m => nodup_upperEdges _, fun m u w => mem_upperEdges _ u w, ?_⟩
  intro m h
  simp only [avgEdgeLength]
  rw [if_neg h]

/-- C9 witness: the mean formula evaluated on a concrete one-tetra mesh
(which has six edges in the upper triangle). -/
theorem claim_C9_witness :
    upperEdges ((⟨[((0 : ℚ), 0, 0), (0, 0, 0), (0, 0, 0), (0, 0, 0)],
        [(0, 1, 2, 3)], [(0, 1, 2, 3)]⟩ : TetMesh).adjsrc) ≠ [] ∧
    avgEdgeLength ⟨[((0 : ℚ), 0, 0), (0, 0, 0), (0, 0, 0), (0, 0, 0)],
        [(0, 1, 2, 3)], [(0, 1, 2, 3)]⟩ =
      some (((upperEdges ((⟨[((0 : ℚ), 0, 0), (0, 0, 0), (0, 0, 0), (0, 0, 0)],
          [(0, 1, 2, 3)], [(0, 1, 2, 3)]⟩ : TetMesh).adjsrc)).map
        (edgeLen [((0 : ℚ), 0, 0), (0, 0, 0), (0, 0, 0), (0, 0, 0)])).sum /
        (upperEdges ((⟨[((0 : ℚ), 0, 0), (0, 0, 0), (0, 0, 0), (0, 0, 0)],
          [(0, 1, 2, 3)], [(0, 1, 2, 3)]⟩ : TetMesh).adjsrc)).length) :=
  ⟨by decide,
   claim_C9_avg_edge_length.2.2
     ⟨[((0 : ℚ), 0, 0), (0, 0, 0), (0, 0, 0), (0, 0, 0)],
       [(0, 1, 2, 3)], [(0, 1, 2, 3)]⟩ (by decide)⟩

/-!  Generic machinery for the unique-row selection of `cupy.unique`:
selecting, among all rows, those whose canonical key occurs exactly once,
by first-occurrence index, is a permutation of filtering the original
rows on key-multiplicity one. -/


section PickUnique

variable {α β : Type}

lemma mem_of_getD (l : List α) (j : ℕ) (d : α) (hj : j < l.length) :
    l.getD j d ∈ l := by
  rw [List.getD_eq_getElem?_getD, List.getElem?_eq_getElem hj]
  exact List.getElem_mem hj

lemma getD_map_of_lt (l : List α) (g : α → β) (i : ℕ) (hi : i < l.length)
    (d0 : α) (d1 : β) : (l.map g).getD i d1 = g (l.getD i d0) := by
  rw [List.getD_eq_getElem?_getD, List.getElem?_map, List.getElem?_eq_getElem hi,
    List.getD_eq_getElem?_getD, List.getElem?_eq_getElem hi]
  rfl

lemma count_one_unique_pos [BEq α] [LawfulBEq α] (r d : α) :
    ∀ (ks : List α) (i j : ℕ), ks.count r = 1 → i < ks.length → j < ks.length →
      ks.getD i d = r → ks.getD j d = r → i = j := by
  intro ks
  induction ks with
  | nil => intro i j hc _ _ _ _; simp at hc
  | cons x l ih =>
    intro i j hc hi hj hgi hgj
    rw [List.count_cons] at hc
    cases i with
    | zero =>
      cases j with
      | zero => rfl
      | succ j =>
        exfalso
        have hx : x = r := by simpa using hgi
        have hjl : j < l.length := by simpa using hj
        have hmem : r ∈ l := by
          have h2 := mem_of_getD l j d hjl
          have h3 : l.getD j d = r := by simpa using hgj
          rwa [h3] at h2
        have hpos : 0 < l.count r := List.count_pos_iff.mpr hmem
        have hb : (x == r) = true := by simp [hx]
        simp [hb] at hc
        omega
    | succ i =>
      cases j with
      | zero =>
        exfalso
        have hx : x = r := by simpa using hgj
        have hil : i < l.length := by simpa using hi
        have hmem : r ∈ l := by
          have h2 := mem_of_getD l i d hil
          have h3 : l.getD i d = r := by simpa using hgi
          rwa [h3] at h2
        have hpos : 0 < l.count r := List.count_pos_iff.mpr hmem
        have hb : (x == r) = true := by simp [hx]
        simp [hb] at hc
        omega
      | succ j =>
        by_cases hx : x = r
        · exfalso
          have hil : i < l.length := by simpa using hi
          have hmem : r ∈ l := by
            have h2 := mem_of_getD l i d hil
            have h3 : l.getD i d = r := by simpa using hgi
            rwa [h3] at h2
          have hpos : 0 < l.count r := List.count_pos_iff.mpr hmem
          have hb : (x == r) = true := by simp [hx]
          simp [hb] at hc
          omega
        · have hb : (x == r) = false := by simp [hx]
          rw [hb] at hc
          simp at hc
          exact congrArg Nat.succ (ih i j hc (by simpa using hi) (by simpa using hj)
            (by simpa using hgi) (by simpa using hgj))

lemma countP_nodup_unique [BEq α] [LawfulBEq α] (p : α → Bool) (r0 : α) :
    ∀ (l : List α), l.Nodup → (∀ x ∈ l, p x = true → x = r0) →
      l.countP p = if r0 ∈ l ∧ p r0 = true then 1 else 0 := by
  intro l
  induction l with
  | nil => intro _ _; simp
  | cons x l ih =>
    intro hnd hp
    rw [List.countP_cons]
    obtain ⟨hxl, hndl⟩ := List.nodup_cons.mp hnd
    by_cases hpx : p x = true
    · have hx0 : x = r0 := hp x (List.mem_cons_self _ _) hpx
      subst hx0
      have hzero : l.countP p = 0 := by
        rw [List.countP_eq_zero]
        intro y hy hpy
        exact hxl ((hp y (List.mem_cons_of_mem _ hy) hpy) ▸ hy)
      rw [hzero, if_pos hpx,
        if_pos (⟨List.mem_cons_self x l, hpx⟩ : x ∈ x :: l ∧ p x = true)]
    · have hmemiff : (r0 ∈ x :: l ∧ p r0 = true) ↔ (r0 ∈ l ∧ p r0 = true) := by
        constructor
        · rintro ⟨hm, hpr⟩
          rcases List.mem_cons.mp hm with rfl | hm
          · exact absurd hpr hpx
          · exact ⟨hm, hpr⟩
        · rintro ⟨hm, hpr⟩
          exact ⟨List.mem_cons_of_mem _ hm, hpr⟩
      rw [if_neg hpx, ih hndl (fun y hy hpy => hp y (List.mem_cons_of_mem _ hy) hpy),
        add_zero]
      exact if_congr hmemiff.symm rfl rfl

lemma indexOf_lt_length_of_mem [BEq β] [LawfulBEq β] {r : β} :
    ∀ {l : List β}, r ∈ l → l.indexOf r < l.length := by
  intro l
  induction l with
  | nil => intro h; cases h
  | cons x xs ih =>
    intro h
    rw [List.indexOf_cons]
    by_cases hb : (x == r) = true
    · simp [hb]
    · have hbf : (x == r) = false := by simpa using hb
      have hmem : r ∈ xs := by
        rcases List.mem_cons.mp h with rfl | hm
        · exact absurd (by simp : (r == r) = true) (hbf ▸ by simp)
        · exact hm
      have := ih hmem
      simp only [hbf, cond_false, List.length_cons]
      omega

lemma getD_indexOf_of_mem [BEq β] [LawfulBEq β] {r : β} (d : β) :
    ∀ {l : List β}, r ∈ l → l.getD (l.indexOf r) d = r := by
  intro l
  induction l with
  | nil => intro h; cases h
  | cons x xs ih =>
    intro h
    rw [List.indexOf_cons]
    by_cases hb : (x == r) = true
    · have hx : x = r := by simpa using hb
      simp [hb, hx]
    · have hbf : (x == r) = false := by simpa using hb
      have hmem : r ∈ xs := by
        rcases List.mem_cons.mp h with rfl | hm
        · exact absurd (by simp : (r == r) = true) (hbf ▸ by simp)
        · exact hm
      simp only [hbf, cond_false]
      simpa using ih hmem

lemma count_le_count_map2 [BEq α] [LawfulBEq α] [BEq β] [LawfulBEq β]
    (l : List α) (k : α → β) (f : α) :
    l.count f ≤ (l.map k).count (k f) := by
  induction l with
  | nil => simp
  | cons x xs ih =>
    rw [List.map_cons, List.count_cons, List.count_cons]
    by_cases hb : (x == f) = true
    · have hkb : (k x == k f) = true := by
        have hx : x = f := by simpa using hb
        simp [hx]
      rw [if_pos hb, if_pos hkb]
      omega
    · rw [if_neg hb]
      split_ifs <;> omega

lemma mem_sortFilterDedup [DecidableEq β] (le : β → β → Prop) [DecidableRel le]
    (ks : List β) (pr : β → Bool) (r : β) :
    r ∈ (List.insertionSort le ks.dedup).filter pr ↔ r ∈ ks ∧ pr r = true := by
  rw [List.mem_filter, (List.perm_insertionSort le ks.dedup).mem_iff, List.mem_dedup]

end PickUnique

section PickUniqueMain

variable {α β : Type} [DecidableEq α] [DecidableEq β] [BEq β] [LawfulBEq β]

lemma unique_pick_perm (k : α → β) (d0 : α) (le : β → β → Prop) [DecidableRel le]
    (l : List α) :
    (((List.insertionSort le (l.map k).dedup).filter
        (fun r => decide ((l.map k).count r = 1))).map
      (fun r => l.getD (List.indexOf r (l.map k)) d0)).Perm
    (l.filter (fun f => decide ((l.map k).count (k f) = 1))) := by
  set ks := l.map k with hks
  set u1 := (List.insertionSort le ks.dedup).filter
    (fun r => decide (ks.count r = 1)) with hu1
  set g : β → α := fun r => l.getD (List.indexOf r ks) d0 with hg
  have hlen : ks.length = l.length := by rw [hks, List.length_map]
  have hu1nd : u1.Nodup := by
    rw [hu1]
    exact List.Nodup.filter _
      ((List.perm_insertionSort le ks.dedup).symm.nodup (List.nodup_dedup ks))
  have hmemu1 : ∀ r, r ∈ u1 ↔ r ∈ ks ∧ ks.count r = 1 := by
    intro r
    rw [hu1, mem_sortFilterDedup]
    simp
  have hkey : ∀ r ∈ u1,
      ks.getD (List.indexOf r ks) (k d0) = r ∧ List.indexOf r ks < ks.length := by
    intro r hr
    have hmem := ((hmemu1 r).mp hr).1
    exact ⟨getD_indexOf_of_mem (k d0) hmem, indexOf_lt_length_of_mem hmem⟩
  have hglem : ∀ r ∈ u1, k (g r) = r := by
    intro r hr
    obtain ⟨hgetr, hlt⟩ := hkey r hr
    calc k (g r) = ks.getD (List.indexOf r ks) (k d0) := by
          rw [hg]
          exact (getD_map_of_lt l k _ (by omega) d0 (k d0)).symm
      _ = r := hgetr
  rw [List.perm_iff_count]
  intro f
  have huniq : ∀ r ∈ u1, (g r == f) = true → r = k f := by
    intro r hr hgr
    have hgf : g r = f := by simpa using hgr
    calc r = k (g r) := (hglem r hr).symm
      _ = k f := congrArg k hgf
  have hLHS : (u1.map g).count f =
      if k f ∈ u1 ∧ (g (k f) == f) = true then 1 else 0 := by
    rw [List.count_eq_countP, List.countP_map]
    exact countP_nodup_unique (fun r => g r == f) (k f) u1 hu1nd huniq
  have hRHS : (l.filter (fun x => decide (ks.count (k x) = 1))).count f =
      if ks.count (k f) = 1 then l.count f else 0 := by
    by_cases hc : ks.count (k f) = 1
    · rw [if_pos hc]
      exact List.count_filter (by simpa using hc)
    · rw [if_neg hc]
      rw [List.count_eq_zero]
      intro hmem
      rw [List.mem_filter] at hmem
      exact hc (by simpa using hmem.2)
  rw [hLHS, hRHS]
  by_cases hc : ks.count (k f) = 1
  · have hle : l.count f ≤ ks.count (k f) := by
      rw [hks]
      exact count_le_count_map2 l k f
    by_cases hfl : f ∈ l
    · have hcnt1 : l.count f = 1 :=
        le_antisymm (hc ▸ hle) (List.count_pos_iff.mpr hfl)
      have hkmem : k f ∈ ks := by
        rw [hks]
        exact List.mem_map_of_mem k hfl
      have hku1 : k f ∈ u1 := (hmemu1 _).mpr ⟨hkmem, hc⟩
      obtain ⟨p, hp, hgp⟩ := List.getElem_of_mem hfl
      have hpD : l.getD p d0 = f := by
        rw [List.getD_eq_getElem?_getD, List.getElem?_eq_getElem hp]
        simpa using hgp
      have hksp : ks.getD p (k d0) = k f := by
        rw [hks, getD_map_of_lt l k p hp d0 (k d0), hpD]
      have hidx := hkey (k f) hku1
      have hpq : List.indexOf (k f) ks = p :=
        count_one_unique_pos (k f) (k d0) ks _ p hc hidx.2 (by omega) hidx.1 hksp
      have hgkf : g (k f) = f := by
        show l.getD (List.indexOf (k f) ks) d0 = f
        rw [hpq]
        exact hpD
      rw [if_pos ⟨hku1, by simp [hgkf]⟩, hcnt1, if_pos hc]
    · have h0 : l.count f = 0 := List.count_eq_zero.mpr hfl
      have hnot : ¬ (k f ∈ u1 ∧ (g (k f) == f) = true) := by
        rintro ⟨hku1, hgkf⟩
        apply hfl
        have hgf0 : g (k f) = f := by simpa using hgkf
        have hgf : l.getD (List.indexOf (k f) ks) d0 = f := hgf0
        have hidx := hkey (k f) hku1
        have hmm : l.getD (List.indexOf (k f) ks) d0 ∈ l :=
          mem_of_getD l _ d0 (by omega)
        rwa [hgf] at hmm
      rw [if_pos hc, h0, if_neg hnot]
  · have hnot : ¬ (k f ∈ u1 ∧ (g (k f) == f) = true) := by
      rintro ⟨hku1, _⟩
      exact hc ((hmemu1 _).mp hku1).2
    rw [if_neg hnot, if_neg hc]

end PickUniqueMain

/-- C5: `boundary_tria` returns, up to order, exactly those generated
faces whose ascending-sorted canonical triple occurs exactly once among
the `4*m` faces generated from all tetras, keeping the original oriented
triple; consequently a single tetrahedron yields 4 boundary triangles and
two tetrahedra glued on a shared face yield 6. -/
theorem claim_C5_boundary_tria :
    (∀ t : List Tet4, (boundaryTria t).Perm
      ((allFaces t).filter (fun f => decide ((faceKeys t).count (sort3 f) = 1)))) ∧
    (boundaryTria [(0, 1, 2, 3)]).length = 4 ∧
    (boundaryTria [(0, 1, 2, 3), (0, 2, 1, 4)]).length = 6 := by
  refine ⟨?_, by decide, by decide⟩
  intro t
  have h := unique_pick_perm sort3 ((0, 0, 0) : Tri3) triLe (allFaces t)
  rw [boundaryTria, boundaryIdx, List.map_map]
  simp only [Function.comp_def, faceKeys]
  exact h

lemma length_allFaces (t : List Tet4) : (allFaces t).length = 4 * t.length := by
  simp [allFaces]
  omega

lemma getD_allFaces (t : List Tet4) (p : ℕ) (hp : p < 4 * t.length) :
    (allFaces t).getD p (0, 0, 0) =
      tetFaceB (p / t.length) (t.getD (p % t.length) (0, 0, 0, 0)) := by
  have hm : 0 < t.length := by omega
  have hA0 : (List.map (tetFaceB 0) t).length = t.length := by simp
  have hA01 : (List.map (tetFaceB 0) t ++ List.map (tetFaceB 1) t).length =
      t.length + t.length := by simp
  have hA012 : (List.map (tetFaceB 0) t ++ List.map (tetFaceB 1) t ++
      List.map (tetFaceB 2) t).length = t.length + t.length + t.length := by
    simp
    omega
  rw [List.getD_eq_getElem?_getD, allFaces]
  rcases Nat.lt_or_ge p t.length with h1 | h1
  · rw [List.getElem?_append, if_pos (by rw [hA012]; omega)]
    rw [List.getElem?_append, if_pos (by rw [hA01]; omega)]
    rw [List.getElem?_append, if_pos (by rw [hA0]; omega)]
    rw [List.getElem?_map, List.getElem?_eq_getElem h1]
    rw [Nat.div_eq_of_lt h1, Nat.mod_eq_of_lt h1]
    rw [List.getD_eq_getElem?_getD, List.getElem?_eq_getElem h1]
    rfl
  · rcases Nat.lt_or_ge p (2 * t.length) with h2 | h2
    · rw [List.getElem?_append, if_pos (by rw [hA012]; omega)]
      rw [List.getElem?_append, if_pos (by rw [hA01]; omega)]
      rw [List.getElem?_append, if_neg (by rw [hA0]; omega)]
      rw [hA0]
      rw [List.getElem?_map,
        List.getElem?_eq_getElem (show p - t.length < t.length by omega)]
      have hdiv : p / t.length = 1 := Nat.div_eq_of_lt_le (by omega) (by omega)
      have hmod : p % t.length = p - t.length := by
        rw [Nat.mod_eq_sub_mod h1, Nat.mod_eq_of_lt (by omega)]
      rw [hdiv, hmod]
      rw [List.getD_eq_getElem?_getD,
        List.getElem?_eq_getElem (show p - t.length < t.length by omega)]
      rfl
    · rcases Nat.lt_or_ge p (3 * t.length) with h3 | h3
      · rw [List.getElem?_append, if_pos (by rw [hA012]; omega)]
        rw [List.getElem?_append, if_neg (by rw [hA01]; omega)]
        rw [hA01]
        rw [List.getElem?_map, List.getElem?_eq_getElem
          (show p - (t.length + t.length) < t.length by omega)]
        have hdiv : p / t.length = 2 := Nat.div_eq_of_lt_le (by omega) (by omega)
        have hmod : p % t.length = p - (t.length + t.length) := by
          rw [Nat.mod_eq_sub_mod h1,
            Nat.mod_eq_sub_mod (show p - t.length ≥ t.length by omega),
            Nat.mod_eq_of_lt (by omega)]
          omega
        rw [hdiv, hmod]
        rw [List.getD_eq_getElem?_getD, List.getElem?_eq_getElem
          (show p - (t.length + t.length) < t.length by omega)]
        rfl
      · rw [List.getElem?_append, if_neg (by rw [hA012]; omega)]
        rw [hA012]
        rw [List.getElem?_map, List.getElem?_eq_getElem
          (show p - (t.length + t.length + t.length) < t.length by omega)]
        have hdiv : p / t.length = 3 := Nat.div_eq_of_lt_le (by omega) (by omega)
        have hmod : p % t.length = p - (t.length + t.length + t.length) := by
          rw [Nat.mod_eq_sub_mod h1,
            Nat.mod_eq_sub_mod (show p - t.length ≥ t.length by omega),
            Nat.mod_eq_sub_mod (show p - t.length - t.length ≥ t.length by omega),
            Nat.mod_eq_of_lt (by omega)]
          omega
        rw [hdiv, hmod]
        rw [List.getD_eq_getElem?_getD, List.getElem?_eq_getElem
          (show p - (t.length + t.length + t.length) < t.length by omega)]
        rfl

/-- C8: when a per-tetra scalar array is supplied, `boundary_tria` returns
a scalar array parallel to the boundary triangle list in which entry `kk`
carries the value of the source tetra of the `kk`-th retained face: the
retained face sits at a generated position `p` (unique, since its
canonical key has multiplicity one), the face equals face `p / m` of
tetra `p % m`, and the scalar is `tetfunc[p % m]`; in particular a single
tetra tagged `x` yields the four scalars `[x, x, x, x]`. -/
theorem claim_C8_scalar_transfer :
    (∀ (t : List Tet4) (f : List ℚ) (kk : ℕ), kk < (boundaryIdx t).length →
      ∃ p, p < 4 * t.length ∧
        (boundaryTriaF t f).1.getD kk (0, 0, 0) = (allFaces t).getD p (0, 0, 0) ∧
        (boundaryTriaF t f).2.getD kk 0 = f.getD (p % t.length) 0 ∧
        (faceKeys t).count (sort3 ((allFaces t).getD p (0, 0, 0))) = 1 ∧
        (allFaces t).getD p (0, 0, 0) =
          tetFaceB (p / t.length) (t.getD (p % t.length) (0, 0, 0, 0)) ∧
        p / t.length < 4) ∧
    (∀ x : ℚ, (boundaryTriaF [(0, 1, 2, 3)] [x]).2 = [x, x, x, x]) := by
  constructor
  · intro t f kk hkk
    set ks := faceKeys t with hksdef
    set u1 := (List.insertionSort triLe ks.dedup).filter
      (fun r => decide (ks.count r = 1)) with hu1
    have hbi : boundaryIdx t = u1.map (fun r => List.indexOf r ks) := rfl
    have hlenk : kk < u1.length := by
      rw [hbi, List.length_map] at hkk
      exact hkk
    set r := u1.getD kk (0, 0, 0) with hr
    have hrmem : r ∈ u1 := mem_of_getD u1 kk _ hlenk
    have hrks : r ∈ ks ∧ ks.count r = 1 := by
      have hh := (mem_sortFilterDedup triLe ks
        (fun r => decide (ks.count r = 1)) r).mp hrmem
      simpa using hh
    set p := List.indexOf r ks with hpdef
    have hplt : p < ks.length := indexOf_lt_length_of_mem hrks.1
    have hkslen : ks.length = 4 * t.length := by
      rw [hksdef, faceKeys, List.length_map, length_allFaces]
    refine ⟨p, by omega, ?_, ?_, ?_, getD_allFaces t p (by omega), ?_⟩
    · show ((boundaryIdx t).map
        (fun q => (allFaces t).getD q (0, 0, 0))).getD kk (0, 0, 0) = _
      rw [hbi, List.map_map]
      rw [getD_map_of_lt u1 _ kk hlenk (0, 0, 0) (0, 0, 0)]
      rfl
    · show ((boundaryIdx t).map
        (fun q => f.getD (q % t.length) 0)).getD kk 0 = _
      rw [hbi, List.map_map]
      rw [getD_map_of_lt u1 _ kk hlenk (0, 0, 0) 0]
      rfl
    · have hkp : ks.getD p (sort3 (0, 0, 0)) =
          sort3 ((allFaces t).getD p (0, 0, 0)) := by
        rw [hksdef, faceKeys]
        exact getD_map_of_lt (allFaces t) sort3 p
          (by rw [length_allFaces]; omega) (0, 0, 0) _
      have hidxr : ks.getD p (sort3 (0, 0, 0)) = r := getD_indexOf_of_mem _ hrks.1
      rw [← hkp, hidxr]
      exact hrks.2
    · exact (Nat.div_lt_iff_lt_mul (by omega)).mpr (by omega)
  · intro x
    have hbi : boundaryIdx [((0 : ℕ), 1, 2, 3)] = [3, 2, 1, 0] := by decide
    show ((boundaryIdx [(0, 1, 2, 3)]).map
      (fun p => ([x] : List ℚ).getD (p % ([((0 : ℕ), 1, 2, 3)] : List Tet4).length) 0))
      = [x, x, x, x]
    rw [hbi]
    simp [Nat.mod_one]

/-- C8 witness: the scalar-transfer statement applied at the single-tetra
mesh with scalar array `[5]` and the first retained face. -/
theorem claim_C8_witness :
    0 < (boundaryIdx [((0 : ℕ), 1, 2, 3)]).length ∧
    (∃ p, p < 4 * ([((0 : ℕ), 1, 2, 3)] : List Tet4).length ∧
      (boundaryTriaF [(0, 1, 2, 3)] [(5 : ℚ)]).1.getD 0 (0, 0, 0) =
        (allFaces [(0, 1, 2, 3)]).getD p (0, 0, 0) ∧
      (boundaryTriaF [(0, 1, 2, 3)] [(5 : ℚ)]).2.getD 0 0 =
        ([(5 : ℚ)] : List ℚ).getD (p % ([((0 : ℕ), 1, 2, 3)] : List Tet4).length) 0 ∧
      (faceKeys [(0, 1, 2, 3)]).count
        (sort3 ((allFaces [(0, 1, 2, 3)]).getD p (0, 0, 0))) = 1 ∧
      (allFaces [(0, 1, 2, 3)]).getD p (0, 0, 0) =
        tetFaceB (p / ([((0 : ℕ), 1, 2, 3)] : List Tet4).length)
          (([((0 : ℕ), 1, 2, 3)] : List Tet4).getD
            (p % ([((0 : ℕ), 1, 2, 3)] : List Tet4).length) (0, 0, 0, 0)) ∧
      p / ([((0 : ℕ), 1, 2, 3)] : List Tet4).length < 4) :=
  ⟨by decide, claim_C8_scalar_transfer.1 [(0, 1, 2, 3)] [(5 : ℚ)] 0 (by decide)⟩

end LapyTet
